import Mathlib

/-!
Verification development for the Rag-PdfAnalyzer news-aggregation pipeline.

The Python sources under `src/` are shallowly embedded here:

* `src/scrapers/base_scraper.py` — the pydantic `Article` model;
* `src/scrapers/storage.py` — `ArticleStorage.save_articles`, `_load_file`,
  `load_articles`, `get_latest_articles`, `cleanup_old_articles`;
* `src/scrapers/main.py` — `NewsAggregator.get_articles_by_category`;
* `src/scrapers/rss_scraper.py` — `RSSFeedScraper.scrape_articles` / `_parse_entry`;
* `src/processors/categorizer.py` — `_fallback_categorize` and
  `ArticleCategorizer.categorize_article`;
* `src/processors/processor.py` — `ArticleProcessor.process_article`.

Modelling conventions.  Python `datetime` instants are modelled as abstract
`Nat` instants; `datetime.isoformat` / `datetime.fromisoformat` are modelled
as an injective decimal text encoding together with its parser — the
repository relies only on the round trip, injectivity and the order of
instants, never on the concrete ISO-8601 syntax.  Python floats in the
categorizer are modelled as exact rationals (`ℚ`); the float program computes
each category score by the identical operation sequence, so equal keyword
counts give bit-identical floats and distinct counts differ by ≈0.2, hence
the rational model decides the same argmax.  File-system state is an explicit
list of named files; network and AI-library effects are parameters.
-/

/-! ### Decimal timestamp text encoding
Model of Python `datetime.isoformat` (`storage.py` line 41) and
`datetime.fromisoformat` (`storage.py` line 99).  `tsDigitsAux` peels decimal
digits with explicit fuel so that everything reduces by `rfl`/`decide`. -/

/-- Little-endian decimal digits of `n`, with fuel (`fuel ≥ n` suffices). -/
def tsDigitsAux : Nat → Nat → List Nat
  | _, 0 => []
  | n, fuel + 1 => if n = 0 then [] else n % 10 :: tsDigitsAux (n / 10) fuel

/-- Value of a little-endian decimal digit list. -/
def tsValue : List Nat → Nat
  | [] => 0
  | d :: ds => d + 10 * tsValue ds

/-- One decimal digit as a character (meaningful for `d < 10`). -/
def digitChar (d : Nat) : Char :=
  Char.ofNat (48 + d)

/-- Parse one decimal digit character. -/
def charDigit (c : Char) : Option Nat :=
  if 48 ≤ c.toNat && c.toNat ≤ 57 then some (c.toNat - 48) else none

/-- Model of Python's loop building a list where the first failure aborts the
whole loop (an uncaught exception inside `for`): `none` as soon as one element
fails. -/
def optionMapList (f : α → Option β) : List α → Option (List β)
  | [] => some []
  | a :: as =>
    match f a with
    | none => none
    | some b =>
      match optionMapList f as with
      | none => none
      | some bs => some (b :: bs)

/-- Model of `datetime.isoformat`: render the abstract instant as decimal
text (big-endian digit string; `0` renders as `""`).  Injective, which is all
the repository uses. -/
def isoformat (t : Nat) : String :=
  String.mk (((tsDigitsAux t t).reverse).map digitChar)

/-- Model of `datetime.fromisoformat`: parse decimal text back to an instant;
any non-digit character makes the text unparseable. -/
def fromisoformat (s : String) : Option Nat :=
  match optionMapList charDigit s.toList with
  | some ds => some (tsValue ds.reverse)
  | none => none

/-! ### The `Article` record (`base_scraper.py` lines 18–29) -/

/-- The pydantic `Article` model: `title`, `url`, `body`, `source` required
strings; `summary`, `category`, `author` optional strings; `published_at`
optional instant; `scraped_at` required instant; `tags` a string list
defaulting to `[]`. -/
structure Article where
  title : String
  url : String
  body : String
  summary : Option String := none
  category : Option String := none
  source : String
  published_at : Option Nat := none
  scraped_at : Nat
  author : Option String := none
  tags : List String := []
deriving DecidableEq, Repr

/-! ### JSON-level article records (`storage.py`) -/

/-- The JSON-level value of one `Article` field as it travels through
`save_articles` / `_load_file`: JSON `null`, a JSON string, a JSON string
array (only `tags`), an in-memory `datetime` before serialization or after
parsing, or a key that is absent from the JSON object. -/
inductive JVal where
  | null
  | str (s : String)
  | arr (xs : List String)
  | time (t : Nat)
  | absent
deriving DecidableEq, Repr

/-- One article as a JSON object (fixed key set of the `Article` model). -/
structure RawArticle where
  title : JVal
  url : JVal
  body : JVal
  summary : JVal
  category : JVal
  source : JVal
  published_at : JVal
  scraped_at : JVal
  author : JVal
  tags : JVal
deriving DecidableEq, Repr

/-- `article.model_dump()` (`storage.py` line 37): every field as its
in-memory value; `None` optionals dump to JSON `null`. -/
def model_dump (a : Article) : RawArticle where
  title := .str a.title
  url := .str a.url
  body := .str a.body
  summary := match a.summary with | some s => .str s | none => .null
  category := match a.category with | some s => .str s | none => .null
  source := .str a.source
  published_at := match a.published_at with | some t => .time t | none => .null
  scraped_at := .time a.scraped_at
  author := match a.author with | some s => .str s | none => .null
  tags := .arr a.tags

/-- The per-value step of the save loop (`storage.py` lines 39–41):
`datetime` values become ISO text, everything else is kept. -/
def isoConvert : JVal → JVal
  | .time t => .str (isoformat t)
  | v => v

/-- One article as written by `save_articles`: `model_dump` with every
`datetime` field serialized to ISO text. -/
def dumpArticle (a : Article) : RawArticle where
  title := isoConvert (model_dump a).title
  url := isoConvert (model_dump a).url
  body := isoConvert (model_dump a).body
  summary := isoConvert (model_dump a).summary
  category := isoConvert (model_dump a).category
  source := isoConvert (model_dump a).source
  published_at := isoConvert (model_dump a).published_at
  scraped_at := isoConvert (model_dump a).scraped_at
  author := isoConvert (model_dump a).author
  tags := isoConvert (model_dump a).tags

/-- The batch-file envelope written by `save_articles` (`storage.py`
lines 47–52): write time, source name (or null), count, article list. -/
structure BatchFile where
  scraped_at : Nat
  source : Option String
  count : Nat
  articles : List RawArticle
deriving DecidableEq, Repr

/-- `ArticleStorage.save_articles` (`storage.py` lines 23–59): the content of
the JSON file written for `articles` with write time `now` and source label
`source_name`. -/
def save_articles (now : Nat) (source_name : Option String) (articles : List Article) :
    BatchFile where
  scraped_at := now
  source := source_name
  count := articles.length
  articles := articles.map dumpArticle

/-- The per-key step of the load loop (`storage.py` lines 96–101): a string
value of a key ending in `_at` is parsed back to a `datetime`; an unparseable
one is replaced by `null`. -/
def tsParse : JVal → JVal
  | .str s =>
    match fromisoformat s with
    | some t => .time t
    | none => .null
  | v => v

/-- The load loop applied to one article object: both `_at`-suffixed keys
(`published_at`, `scraped_at`) go through `tsParse`. -/
def loadTransform (r : RawArticle) : RawArticle :=
  { r with published_at := tsParse r.published_at, scraped_at := tsParse r.scraped_at }

/-- pydantic validation of a required `str` field. -/
def asReqStr : JVal → Option String
  | .str s => some s
  | _ => none

/-- pydantic validation of an `Optional[str]` field (absent key → default
`None`). -/
def asOptStr : JVal → Option (Option String)
  | .str s => some (some s)
  | .null => some none
  | .absent => some none
  | _ => none

/-- pydantic validation of an `Optional[datetime]` field; pydantic itself
parses a string value. -/
def asOptTime : JVal → Option (Option Nat)
  | .time t => some (some t)
  | .str s =>
    match fromisoformat s with
    | some t => some (some t)
    | none => none
  | .null => some none
  | .absent => some none
  | _ => none

/-- pydantic validation of the required `datetime` field `scraped_at`:
`null` or absent is a validation error. -/
def asReqTime : JVal → Option Nat
  | .time t => some t
  | .str s => fromisoformat s
  | _ => none

/-- pydantic validation of `tags : List[str] = []` (absent key → `[]`). -/
def asTags : JVal → Option (List String)
  | .arr xs => some xs
  | .absent => some []
  | _ => none

/-- `Article(**article_data)` (`storage.py` line 103): pydantic construction
of an `Article` from one JSON object, `none` when validation raises. -/
def validateArticle (r : RawArticle) : Option Article := do
  let title ← asReqStr r.title
  let url ← asReqStr r.url
  let body ← asReqStr r.body
  let summary ← asOptStr r.summary
  let category ← asOptStr r.category
  let source ← asReqStr r.source
  let published_at ← asOptTime r.published_at
  let scraped_at ← asReqTime r.scraped_at
  let author ← asOptStr r.author
  let tags ← asTags r.tags
  pure { title, url, body, summary, category, source, published_at, scraped_at, author, tags }

/-- The whole per-article step of `_load_file`: timestamp-text conversion,
then pydantic validation. -/
def parseRawArticle (r : RawArticle) : Option Article :=
  validateArticle (loadTransform r)

/-- `ArticleStorage._load_file` (`storage.py` lines 87–109) on the content of
one file.  `none` content models a file whose read or JSON parse raises; any
exception inside the article loop (one invalid article) is caught by the same
per-file handler, so the whole file contributes `[]`. -/
def load_file (content : Option BatchFile) : List Article :=
  match content with
  | none => []
  | some b =>
    match optionMapList parseRawArticle b.articles with
    | some articles => articles
    | none => []

/-! ### Round trip of the timestamp encoding -/

theorem tsValue_tsDigitsAux (fuel n : Nat) (h : n < 10 ^ fuel) :
    tsValue (tsDigitsAux n fuel) = n := by
  induction fuel generalizing n with
  | zero => simp at h; simp [h, tsDigitsAux, tsValue]
  | succ f ih =>
    by_cases hn : n = 0
    · simp [hn, tsDigitsAux, tsValue]
    · have hdiv : n / 10 < 10 ^ f := by
        rw [Nat.div_lt_iff_lt_mul (by norm_num)]
        calc n < 10 ^ (f + 1) := h
        _ = 10 ^ f * 10 := by ring
      simp only [tsDigitsAux, hn, if_false, tsValue, ih _ hdiv]
      omega

theorem tsDigitsAux_lt_ten (fuel n : Nat) : ∀ d ∈ tsDigitsAux n fuel, d < 10 := by
  induction fuel generalizing n with
  | zero => simp [tsDigitsAux]
  | succ f ih =>
    by_cases hn : n = 0
    · simp [hn, tsDigitsAux]
    · simp only [tsDigitsAux, hn, if_false, List.mem_cons]
      rintro d (rfl | hd)
      · omega
      · exact ih _ d hd

theorem charDigit_digitChar : ∀ d < 10, charDigit (digitChar d) = some d := by decide

theorem optionMapList_charDigit_map (l : List Nat) (h : ∀ d ∈ l, d < 10) :
    optionMapList charDigit (l.map digitChar) = some l := by
  induction l with
  | nil => rfl
  | cons d ds ih =>
    have hd : d < 10 := h d (List.mem_cons_self d ds)
    simp only [List.map_cons, optionMapList, charDigit_digitChar d hd,
      ih (fun x hx => h x (List.mem_cons_of_mem d hx))]

theorem fromisoformat_isoformat (t : Nat) : fromisoformat (isoformat t) = some t := by
  have hlt : ∀ d ∈ (tsDigitsAux t t).reverse, d < 10 := by
    intro d hd
    exact tsDigitsAux_lt_ten t t d (List.mem_reverse.mp hd)
  have hls : (String.mk (((tsDigitsAux t t).reverse).map digitChar)).toList
      = ((tsDigitsAux t t).reverse).map digitChar := rfl
  simp only [fromisoformat, isoformat, hls, optionMapList_charDigit_map _ hlt,
    List.reverse_reverse]
  by_cases h0 : t = 0
  · subst h0; rfl
  · rw [tsValue_tsDigitsAux t t (Nat.lt_pow_self (by norm_num) t)]

/-! ### Save/load round trip (claim C1) -/

theorem parseRawArticle_dumpArticle (a : Article) :
    parseRawArticle (dumpArticle a) = some a := by
  rcases a with ⟨title, url, body, summary, category, source, published_at, scraped_at, author, tags⟩
  cases summary <;> cases category <;> cases published_at <;> cases author <;>
    simp [parseRawArticle, dumpArticle, model_dump, isoConvert, loadTransform, tsParse,
      fromisoformat_isoformat, validateArticle, asReqStr, asOptStr, asOptTime, asReqTime,
      asTags, Option.bind]

theorem optionMapList_map_id (f : α → β) (g : β → Option α) (l : List α)
    (h : ∀ a ∈ l, g (f a) = some a) :
    optionMapList g (l.map f) = some l := by
  induction l with
  | nil => rfl
  | cons a as ih =>
    simp only [List.map_cons, optionMapList, h a (List.mem_cons_self a as),
      ih (fun x hx => h x (List.mem_cons_of_mem a hx))]

/-- **C1.** Saving any list of `Article`s with `save_articles` and loading the
same file back with `_load_file` (the explicit-path branch of
`load_articles`) returns exactly the saved sequence: same length, same order,
every field equal, the `published_at`/`scraped_at` instants surviving the
ISO-text serialization round trip. -/
theorem save_load_roundtrip (now : Nat) (source_name : Option String)
    (articles : List Article) :
    load_file (some (save_articles now source_name articles)) = articles := by
  simp only [load_file, save_articles,
    optionMapList_map_id dumpArticle parseRawArticle articles
      (fun a _ => parseRawArticle_dumpArticle a)]

/-! ### The storage directory (`storage.py` lines 61–140)
A directory state is the list of its files; each file carries its name, its
filesystem modification time and its content (`none` = a file whose read or
JSON parse raises). -/

/-- One file of the storage directory. -/
structure StoredFile where
  name : String
  mtime : Int
  content : Option BatchFile
deriving DecidableEq

/-- `timedelta(days=1)` in the abstract instant unit. -/
def daySeconds : Int := 86400

/-- Substring test, Python's `needle in hay` on strings. -/
def listContains [BEq α] : List α → List α → Bool
  | n, [] => n.isEmpty
  | n, a :: hs => n.isPrefixOf (a :: hs) || listContains n hs

/-- Python `needle in hay` for strings. -/
def strContains (hay needle : String) : Bool :=
  listContains needle.toList hay.toList

/-- Whether `glob("*.json")` yields this file. -/
def isJsonName (s : String) : Bool :=
  ".json".toList.isSuffixOf s.toList

/-- The per-file admission test of the directory branch of `load_articles`
(`storage.py` lines 74–81): a `*.json` file, modification time not before the
cutoff `now − max_age_days` (strict `<` skips), and — when the `source`
argument is truthy — the source string occurring in the file name. -/
def keepFile (now : Int) (maxAgeDays : Nat) (src : Option String) (f : StoredFile) : Bool :=
  isJsonName f.name
    && !(decide (f.mtime < now - (maxAgeDays : Int) * daySeconds))
    && (match src with
        | some s => if s = "" then true else strContains f.name s
        | none => true)

/-- `ArticleStorage.load_articles` with no explicit path (`storage.py`
lines 61–85): concatenate, in directory order, the contribution of every
admitted file. -/
def load_articles_dir (dir : List StoredFile) (now : Int) (src : Option String)
    (maxAgeDays : Nat) : List Article :=
  (dir.filter (keepFile now maxAgeDays src)).flatMap (fun f => load_file f.content)

/-- The deletion test of `cleanup_old_articles` (`storage.py` lines 130–131):
a `*.json` file strictly older than the cutoff. -/
def isStaleJson (now : Int) (maxAgeDays : Nat) (f : StoredFile) : Bool :=
  isJsonName f.name && decide (f.mtime < now - (maxAgeDays : Int) * daySeconds)

/-- `ArticleStorage.cleanup_old_articles` (`storage.py` lines 125–140): the
directory state after unlinking every stale batch file.  `unlink` is modelled
as succeeding; its `except` branch only logs. -/
def cleanup_old_articles (dir : List StoredFile) (now : Int) (maxAgeDays : Nat) :
    List StoredFile :=
  dir.filter (fun f => !isStaleJson now maxAgeDays f)

/-! ### Cleanup removes exactly the stale batch files (claim C9) -/

/-- **C9.** `cleanup_old_articles(max_age_days=D)` deletes exactly the
`*.json` files whose modification time is strictly older than `now − D`:
a file survives iff it is not a stale batch file, the surviving directory is
a sublist of the original (every other file untouched, order and content
preserved), and a second run at the same instant deletes nothing new. -/
theorem cleanup_exact_and_idempotent (dir : List StoredFile) (now : Int) (D : Nat) :
    (∀ f, f ∈ cleanup_old_articles dir now D ↔
        f ∈ dir ∧ ¬(isJsonName f.name = true ∧ f.mtime < now - (D : Int) * daySeconds))
    ∧ (cleanup_old_articles dir now D).Sublist dir
    ∧ cleanup_old_articles (cleanup_old_articles dir now D) now D
        = cleanup_old_articles dir now D := by
  refine ⟨fun f => ?_, List.filter_sublist dir, ?_⟩
  · rw [cleanup_old_articles, List.mem_filter]
    simp [isStaleJson, -not_and, not_and_or]
  · rw [cleanup_old_articles, cleanup_old_articles, List.filter_filter]
    simp

/-- Witness for C9 at a concrete two-file directory. -/
theorem cleanup_exact_and_idempotent_witness :
    let stale : StoredFile := ⟨"a_20240101_000000.json", 0, none⟩
    let fresh : StoredFile := ⟨"b_20240108_000000.json", 600000, none⟩
    cleanup_old_articles [stale, fresh] 700000 7 = [fresh]
    ∧ ¬ stale ∈ cleanup_old_articles [stale, fresh] 700000 7 := by
  intro stale fresh
  have h := cleanup_exact_and_idempotent [stale, fresh] 700000 7
  refine ⟨by decide, fun hc => ?_⟩
  have := (h.1 stale).mp hc
  exact this.2 (by decide)

/-! ### Windowed load never aborts on one bad file (claim C8) -/

theorem load_articles_dir_append (dir1 dir2 : List StoredFile) (now : Int)
    (src : Option String) (d : Nat) :
    load_articles_dir (dir1 ++ dir2) now src d
      = load_articles_dir dir1 now src d ++ load_articles_dir dir2 now src d := by
  simp [load_articles_dir, List.filter_append]

/-- **C8.** The directory branch of `load_articles` returns the concatenation
of the per-file contributions of the admitted files: a file whose read or
JSON parse fails contributes nothing and its presence anywhere in the
directory leaves the rest of the result unchanged, while an admitted file all
of whose article records validate contributes exactly its article sequence. -/
theorem load_skips_bad_file (dir1 dir2 : List StoredFile) (f : StoredFile) (now : Int)
    (src : Option String) (d : Nat) (hbad : f.content = none) :
    load_articles_dir (dir1 ++ f :: dir2) now src d
        = load_articles_dir dir1 now src d ++ load_articles_dir dir2 now src d
    ∧ ∀ (g : StoredFile) (b : BatchFile) (arts : List Article), g.content = some b →
        optionMapList parseRawArticle b.articles = some arts →
        load_articles_dir [g] now src d
          = if keepFile now d src g then arts else [] := by
  constructor
  · rw [show dir1 ++ f :: dir2 = dir1 ++ [f] ++ dir2 by simp,
      load_articles_dir_append, load_articles_dir_append]
    have hmid : load_articles_dir [f] now src d = [] := by
      simp only [load_articles_dir, List.filter]
      cases keepFile now d src f <;> simp [hbad, load_file]
    rw [hmid, List.append_nil]
  · intro g b arts hg hparse
    simp only [load_articles_dir, List.filter]
    cases hk : keepFile now d src g <;>
      simp [hk, hg, load_file, hparse]

/-- Witness for C8: one unreadable file between two good ones. -/
theorem load_skips_bad_file_witness :
    let art : Article := { title := "t", url := "u", body := "b", source := "s", scraped_at := 3 }
    let good : StoredFile := ⟨"x_1.json", 50, some (save_articles 9 (some "x") [art])⟩
    let bad : StoredFile := ⟨"y_2.json", 50, none⟩
    load_articles_dir [good, bad, good] 60 none 7
      = load_articles_dir [good] 60 none 7 ++ load_articles_dir [good] 60 none 7 := by
  intro art good bad
  exact (load_skips_bad_file [good] [good] bad 60 none 7 rfl).1

/-! ### Failure granularity of `_load_file` (claim C10)
The claim states that any `*_at` field holding an unparseable string makes
the required-field validation fail and the whole file's contribution be
discarded.  That is true of `scraped_at` but false of `published_at`:
`published_at` is `Optional`, so the `null` that replaces its unparseable
text passes validation and the article still loads. -/

/-- A raw article record whose `published_at` text is unparseable but whose
other fields are valid. -/
def rawBadPublished : RawArticle where
  title := .str "t"
  url := .str "u"
  body := .str "b"
  summary := .null
  category := .null
  source := .str "s"
  published_at := .str "not-a-date"
  scraped_at := .str "5"
  author := .null
  tags := .arr []

/-- Counterexample to C10 as stated: a batch file containing a record with an
unparseable `published_at` string (an `*_at` field) is NOT discarded —
`_load_file` returns the article, with `published_at` degraded to `none`. -/
theorem load_file_bad_published_at_not_discarded :
    fromisoformat "not-a-date" = none
    ∧ load_file (some ⟨9, none, 1, [rawBadPublished]⟩)
        = [{ title := "t", url := "u", body := "b", source := "s",
             published_at := none, scraped_at := 5 }] := by
  constructor
  · rfl
  · rfl

theorem validateArticle_none_of_scraped (r : RawArticle) (h : asReqTime r.scraped_at = none) :
    validateArticle r = none := by
  cases hv : validateArticle r with
  | none => rfl
  | some a =>
    exfalso
    simp only [validateArticle, Option.bind_eq_bind, Option.bind_eq_some, Option.pure_def,
      Option.some.injEq, h] at hv
    simp at hv

theorem optionMapList_none_of_mem (f : α → Option β) (l : List α) (a : α)
    (ha : a ∈ l) (hf : f a = none) : optionMapList f l = none := by
  induction l with
  | nil => cases ha
  | cons x xs ih =>
    rcases List.mem_cons.mp ha with rfl | hx
    · simp [optionMapList, hf]
    · simp only [optionMapList]
      cases f x with
      | none => rfl
      | some b => rw [ih hx]

/-- **C10 (amended).** Whenever some record of a batch file has a
`scraped_at` field whose string value is unparseable, `_load_file` turns that
value into `null`, the required-field validation of that record fails, and
the per-file handler discards the ENTIRE file's contribution — including
every well-formed record in the same file.  (An unparseable `published_at`
merely degrades to `null` and the record still loads.) -/
theorem load_file_discards_whole_file_on_bad_scraped_at (b : BatchFile) (r : RawArticle)
    (s : String) (hr : r ∈ b.articles) (hs : r.scraped_at = .str s)
    (hbad : fromisoformat s = none) :
    load_file (some b) = [] := by
  have hparse : parseRawArticle r = none := by
    apply validateArticle_none_of_scraped
    simp [loadTransform, tsParse, hs, hbad, asReqTime]
  simp only [load_file, optionMapList_none_of_mem parseRawArticle b.articles r hr hparse]

/-- A well-formed raw record for the C10 witness. -/
def rawGoodRecord : RawArticle :=
  dumpArticle { title := "t", url := "u", body := "b", source := "s", scraped_at := 3 }

/-- A raw record whose `scraped_at` text is unparseable. -/
def rawBadScraped : RawArticle :=
  { rawGoodRecord with scraped_at := .str "zz" }

/-- Witness for amended C10: one bad `scraped_at` record discards the good
record sitting next to it in the same file. -/
theorem load_file_discards_whole_file_witness :
    load_file (some ⟨9, none, 2, [rawGoodRecord, rawBadScraped]⟩) = [] := by
  exact load_file_discards_whole_file_on_bad_scraped_at
    ⟨9, none, 2, [rawGoodRecord, rawBadScraped]⟩ rawBadScraped "zz"
    (by decide) rfl rfl

/-! ### Recency queries (`storage.py` lines 111–123, `main.py` lines 140–155) -/

/-- Descending `scraped_at` comparison used by both query operations:
`scrapedDesc a b` holds when `a` may come before `b` in a list sorted by
`scraped_at` descending. -/
def scrapedDesc (a b : Article) : Prop := b.scraped_at ≤ a.scraped_at

instance : DecidableRel scrapedDesc := fun a b => Nat.decLe b.scraped_at a.scraped_at

instance : IsTotal Article scrapedDesc := ⟨fun a b => Nat.le_total b.scraped_at a.scraped_at⟩

instance : IsTrans Article scrapedDesc :=
  ⟨fun _ _ _ hab hbc => Nat.le_trans hbc hab⟩

/-- Python truthiness of an optional string argument: `None` and `""` are
falsy. -/
def truthyOpt : Option String → Bool
  | none => false
  | some s => !s.isEmpty

/-- `ArticleStorage.get_latest_articles` (`storage.py` lines 111–123) applied
to the loaded article list: filter by exact category equality when the
`category` argument is truthy, sort by `scraped_at` descending (stable, as
Python's `list.sort(reverse=True)`), truncate to `limit`. -/
def get_latest_articles (stored : List Article) (limit : Nat) (category : Option String) :
    List Article :=
  let articles :=
    if truthyOpt category then stored.filter (fun a => a.category == category) else stored
  (articles.insertionSort scrapedDesc).take limit

/-- Concrete article for the C3 counterexample. -/
def techArticle : Article :=
  { title := "t", url := "u", body := "b", source := "s", scraped_at := 0,
    category := some "tech" }

/-- Counterexample to C3 as stated: with the explicitly given category
`C = ""` (a category string Python treats as falsy), `get_latest_articles`
does not filter at all, and returns an article whose category is not `C`. -/
theorem get_latest_empty_category_unfiltered :
    get_latest_articles [techArticle] 1 (some "") = [techArticle]
    ∧ techArticle.category ≠ some "" := by
  exact ⟨rfl, by decide⟩

/-- **C3 (amended).** For every stored list, every `limit` and every category
argument that is not the empty string, `get_latest_articles` returns at most
`limit` articles, the returned sequence is non-increasing in `scraped_at`,
and when a (non-empty) category `C` is given every returned article has
category exactly `C`.  (A `category=""` argument is falsy in Python and
disables filtering exactly like `None`.) -/
theorem get_latest_spec (stored : List Article) (limit : Nat) (category : Option String)
    (hcat : ∀ s, category = some s → s ≠ "") :
    (get_latest_articles stored limit category).length ≤ limit
    ∧ List.Pairwise (fun a b => b.scraped_at ≤ a.scraped_at)
        (get_latest_articles stored limit category)
    ∧ ∀ a ∈ get_latest_articles stored limit category, ∀ s, category = some s →
        a.category = some s := by
  refine ⟨?_, ?_, ?_⟩
  · exact List.length_take_le limit _
  · have hs : List.Pairwise scrapedDesc
        ((if truthyOpt category then stored.filter (fun a => a.category == category)
          else stored).insertionSort scrapedDesc) :=
      List.sorted_insertionSort scrapedDesc _
    exact List.Pairwise.sublist (List.take_sublist limit _) hs
  · intro a ha s hcs
    subst hcs
    have hne : truthyOpt (some s) = true := by
      simp only [truthyOpt, Bool.not_eq_true']
      cases hempty : s.isEmpty with
      | false => rfl
      | true => exact absurd ((String.isEmpty_iff s).mp hempty) (hcat s rfl)
    rw [get_latest_articles] at ha
    simp only [hne, if_true] at ha
    have hmem : a ∈ stored.filter (fun a => a.category == some s) :=
      (List.perm_insertionSort scrapedDesc _).mem_iff.mp (List.mem_of_mem_take ha)
    have := (List.mem_filter.mp hmem).2
    simpa using this

/-- Witness for amended C3 at a concrete store. -/
theorem get_latest_spec_witness :
    (∀ s, (some "tech" : Option String) = some s → s ≠ "")
    ∧ ((get_latest_articles [techArticle] 1 (some "tech")).length ≤ 1
      ∧ List.Pairwise (fun a b => b.scraped_at ≤ a.scraped_at)
          (get_latest_articles [techArticle] 1 (some "tech"))
      ∧ ∀ a ∈ get_latest_articles [techArticle] 1 (some "tech"), ∀ s,
          (some "tech" : Option String) = some s → a.category = some s) := by
  refine ⟨fun s hs => ?_, get_latest_spec [techArticle] 1 (some "tech")
    (fun s hs => ?_)⟩ <;>
  · cases hs
    decide

/-! ### Grouping by category (`main.py` lines 140–155) -/

/-- `article.category or 'uncategorized'` (`main.py` line 146): the bucket
key of an article; a falsy category (`None` or `""`) maps to the fixed
`"uncategorized"` bucket. -/
def bucketKey (a : Article) : String :=
  match a.category with
  | some c => if c = "" then "uncategorized" else c
  | none => "uncategorized"

/-- One step of the dict-building loop (`main.py` lines 145–149): append the
article to its bucket, creating the bucket at the end (dict insertion order)
if the key is new. -/
def addToBucket : List (String × List Article) → String → Article →
    List (String × List Article)
  | [], k, a => [(k, [a])]
  | (k2, l) :: rest, k, a =>
    if k2 = k then (k2, l ++ [a]) :: rest else (k2, l) :: addToBucket rest k a

/-- `NewsAggregator.get_articles_by_category` (`main.py` lines 140–155)
applied to the loaded article list: bucket every article by `bucketKey` in
dict insertion order, then sort each bucket by `scraped_at` descending. -/
def get_articles_by_category (articles : List Article) : List (String × List Article) :=
  (articles.foldl (fun acc a => addToBucket acc (bucketKey a) a) []).map
    (fun p => (p.1, p.2.insertionSort scrapedDesc))

theorem addToBucket_keys (acc : List (String × List Article)) (k : String) (a : Article) :
    (addToBucket acc k a).map Prod.fst
      = if k ∈ acc.map Prod.fst then acc.map Prod.fst else acc.map Prod.fst ++ [k] := by
  induction acc with
  | nil => simp [addToBucket]
  | cons p rest ih =>
    obtain ⟨k2, l⟩ := p
    by_cases hk : k2 = k
    · simp [addToBucket, hk]
    · simp only [addToBucket, if_neg hk, List.map_cons, ih, List.mem_cons]
      by_cases hmem : k ∈ rest.map Prod.fst
      · simp [hmem, Ne.symm hk]
      · simp [hmem, Ne.symm hk]

theorem addToBucket_flatten (acc : List (String × List Article)) (k : String) (a : Article) :
    (((addToBucket acc k a).map Prod.snd).flatten).Perm
      (((acc.map Prod.snd).flatten) ++ [a]) := by
  induction acc with
  | nil => simp [addToBucket]
  | cons p rest ih =>
    obtain ⟨k2, l⟩ := p
    by_cases hk : k2 = k
    · simp only [addToBucket, if_pos hk, List.map_cons, List.flatten_cons, List.append_assoc,
        List.singleton_append]
      exact List.Perm.append_left l
        (@List.perm_append_comm Article [a] ((rest.map Prod.snd).flatten))
    · simp only [addToBucket, if_neg hk, List.map_cons, List.flatten_cons, List.append_assoc]
      exact ih.append_left l

theorem addToBucket_mem_inv (acc : List (String × List Article)) (k : String) (a : Article)
    (hk : bucketKey a = k)
    (hinv : ∀ k2 l, (k2, l) ∈ acc → ∀ x ∈ l, bucketKey x = k2) :
    ∀ k2 l, (k2, l) ∈ addToBucket acc k a → ∀ x ∈ l, bucketKey x = k2 := by
  induction acc with
  | nil =>
    intro k2 l hmem x hx
    simp only [addToBucket, List.mem_singleton, Prod.mk.injEq] at hmem
    obtain ⟨rfl, rfl⟩ := hmem
    simp only [List.mem_singleton] at hx
    subst hx
    exact hk
  | cons p rest ih =>
    obtain ⟨k3, l3⟩ := p
    intro k2 l hmem x hx
    by_cases h3 : k3 = k
    · simp only [addToBucket, if_pos h3, List.mem_cons, Prod.mk.injEq] at hmem
      rcases hmem with ⟨rfl, rfl⟩ | hmem
      · rcases List.mem_append.mp hx with hxl | hxa
        · exact hinv k2 l3 (List.mem_cons_self _ _) x hxl
        · simp only [List.mem_singleton] at hxa
          subst hxa
          rw [hk, h3]
      · exact hinv k2 l (List.mem_cons_of_mem _ hmem) x hx
    · simp only [addToBucket, if_neg h3, List.mem_cons, Prod.mk.injEq] at hmem
      rcases hmem with ⟨rfl, rfl⟩ | hmem
      · exact hinv k2 l (List.mem_cons_self _ _) x hx
      · exact ih (fun k4 l4 h4 => hinv k4 l4 (List.mem_cons_of_mem _ h4)) k2 l hmem x hx

theorem groupFold_inv (articles : List Article) (acc : List (String × List Article))
    (hkeys : (acc.map Prod.fst).Nodup)
    (hinv : ∀ k l, (k, l) ∈ acc → ∀ x ∈ l, bucketKey x = k) :
    let g := articles.foldl (fun acc a => addToBucket acc (bucketKey a) a) acc
    (g.map Prod.fst).Nodup
    ∧ (∀ k l, (k, l) ∈ g → ∀ x ∈ l, bucketKey x = k)
    ∧ ((g.map Prod.snd).flatten).Perm (((acc.map Prod.snd).flatten) ++ articles) := by
  induction articles generalizing acc with
  | nil => exact ⟨hkeys, hinv, by simp⟩
  | cons a as ih =>
    have hkeys2 : ((addToBucket acc (bucketKey a) a).map Prod.fst).Nodup := by
      rw [addToBucket_keys]
      by_cases hmem : bucketKey a ∈ acc.map Prod.fst
      · simpa [hmem] using hkeys
      · simp only [hmem, if_false]
        exact List.Nodup.append hkeys (List.nodup_singleton _)
          (by simpa using fun h => hmem h)
    have hinv2 := addToBucket_mem_inv acc (bucketKey a) a rfl hinv
    obtain ⟨h1, h2, h3⟩ := ih (addToBucket acc (bucketKey a) a) hkeys2 hinv2
    refine ⟨h1, h2, ?_⟩
    have h4 := (addToBucket_flatten acc (bucketKey a) a).append_right as
    rw [List.append_assoc, List.singleton_append] at h4
    exact h3.trans h4

theorem flatten_map_sort_perm (bs : List (String × List Article)) :
    (((bs.map (fun p => (p.1, p.2.insertionSort scrapedDesc))).map Prod.snd).flatten).Perm
      ((bs.map Prod.snd).flatten) := by
  induction bs with
  | nil => simp
  | cons p rest ih =>
    simp only [List.map_cons, List.flatten_cons]
    exact (List.perm_insertionSort scrapedDesc p.2).append ih

theorem keys_map_sort (bs : List (String × List Article)) :
    ((bs.map (fun p => (p.1, p.2.insertionSort scrapedDesc))).map Prod.fst)
      = bs.map Prod.fst := by
  simp [List.map_map, Function.comp]

/-- **C4.** `get_articles_by_category` partitions the loaded articles: the
concatenation of all buckets is a permutation of the input (no duplication,
no loss), bucket keys are pairwise distinct, every article sits only in the
bucket named by its key — its own category when that is a non-empty string,
the fixed `"uncategorized"` bucket when the category is missing — and every
bucket is sorted by `scraped_at` descending. -/
theorem categorized_partition (articles : List Article) :
    (((get_articles_by_category articles).map Prod.snd).flatten).Perm articles
    ∧ ((get_articles_by_category articles).map Prod.fst).Nodup
    ∧ (∀ k l, (k, l) ∈ get_articles_by_category articles → ∀ x ∈ l, bucketKey x = k)
    ∧ (∀ k l, (k, l) ∈ get_articles_by_category articles →
        List.Pairwise (fun a b => b.scraped_at ≤ a.scraped_at) l)
    ∧ (∀ a : Article, a.category = none → bucketKey a = "uncategorized")
    ∧ (∀ (a : Article) (c : String), a.category = some c → c ≠ "" → bucketKey a = c) := by
  obtain ⟨h1, h2, h3⟩ := groupFold_inv articles [] (by simp) (by simp)
  refine ⟨?_, ?_, ?_, ?_, ?_, ?_⟩
  · exact (flatten_map_sort_perm _).trans (by simpa using h3)
  · rw [get_articles_by_category, keys_map_sort]
    exact h1
  · intro k l hmem x hx
    simp only [get_articles_by_category, List.mem_map, Prod.mk.injEq] at hmem
    obtain ⟨⟨k0, l0⟩, hmem0, hk0, hl0⟩ := hmem
    subst hl0
    rw [← hk0]
    exact h2 k0 l0 hmem0 x ((List.perm_insertionSort scrapedDesc l0).mem_iff.mp hx)
  · intro k l hmem
    simp only [get_articles_by_category, List.mem_map, Prod.mk.injEq] at hmem
    obtain ⟨⟨k0, l0⟩, hmem0, hk0, hl0⟩ := hmem
    subst hl0
    exact List.sorted_insertionSort scrapedDesc l0
  · intro a ha
    simp [bucketKey, ha]
  · intro a c hc hne
    simp [bucketKey, hc, hne]

/-- Concrete articles for the C4 witness. -/
def wArt1 : Article :=
  { title := "1", url := "u", body := "b", source := "s", scraped_at := 1,
    category := some "tech" }

def wArt2 : Article :=
  { title := "2", url := "u", body := "b", source := "s", scraped_at := 2 }

def wArt3 : Article :=
  { title := "3", url := "u", body := "b", source := "s", scraped_at := 3,
    category := some "tech" }

/-- Witness for C4 at a concrete three-article store. -/
theorem categorized_partition_witness :
    (((get_articles_by_category [wArt1, wArt2, wArt3]).map Prod.snd).flatten).Perm
      [wArt1, wArt2, wArt3]
    ∧ get_articles_by_category [wArt1, wArt2, wArt3]
        = [("tech", [wArt3, wArt1]), ("uncategorized", [wArt2])] := by
  exact ⟨(categorized_partition [wArt1, wArt2, wArt3]).1, by decide⟩

/-! ### Fallback categorization (`categorizer.py` lines 106–137, 254–261)
Python floats are modelled as exact rationals; see the header comment. -/

/-- The fixed keyword table (`categorizer.py` lines 112–120). -/
def category_keywords : List (String × List String) :=
  [("tech", ["technology", "ai", "software", "computer", "digital", "startup", "app"]),
   ("finance", ["money", "bank", "stock", "investment", "market", "economy", "business"]),
   ("health", ["health", "medical", "doctor", "disease", "treatment", "medicine"]),
   ("politics", ["government", "election", "policy", "president", "congress", "political"]),
   ("sports", ["sport", "game", "team", "player", "championship", "league"]),
   ("science", ["research", "study", "scientific", "discovery", "experiment"]),
   ("entertainment", ["movie", "music", "celebrity", "entertainment", "film", "show"])]

/-- Model of Python `str.lower()` (ASCII case folding per character). -/
def strToLower (s : String) : String :=
  String.mk (s.data.map Char.toLower)

/-- `category_keywords.get(category.lower(), [category.lower()])`
(`categorizer.py` line 124). -/
def keywordsFor (category : String) : List String :=
  (category_keywords.lookup (strToLower category)).getD [strToLower category]

/-- The score loop of `_fallback_categorize` (`categorizer.py` lines
122–130): base score `0.1`, plus `0.2` for each keyword of the category
occurring in the lower-cased text, capped at `1.0`. -/
def rawScore (text_lower : String) (category : String) : ℚ :=
  min ((keywordsFor category).foldl
    (fun s kw => if strContains text_lower kw then s + 0.2 else s) 0.1) 1

/-- First-occurrence de-duplication: the key sequence of a Python dict built
by assigning each element of the list once (`scores[category] = ...` keeps
the first-insertion position of duplicated candidates). -/
def dedupFirst : List String → List String
  | [] => []
  | c :: cs => c :: (dedupFirst cs).filter (fun d => d != c)

/-- `OpenAICategorizer._fallback_categorize` (`categorizer.py` lines
106–137): score every candidate category, then normalize by the total when
it is positive.  The Python dict is modelled as an association list in
first-insertion order. -/
def fallback_categorize (text : String) (categories : List String) :
    List (String × ℚ) :=
  let text_lower := strToLower text
  let scores := (dedupFirst categories).map
    (fun category => (category, rawScore text_lower category))
  let total := (scores.map Prod.snd).sum
  if 0 < total then scores.map (fun p => (p.1, p.2 / total)) else scores

/-- `max(scores, key=scores.get)` over the tail, given the current best:
a later entry replaces the best only when strictly greater, so the first
maximal entry wins. -/
def bestKeyAux (k : String) (v : ℚ) : List (String × ℚ) → String
  | [] => k
  | (k2, v2) :: rest => if v < v2 then bestKeyAux k2 v2 rest else bestKeyAux k v rest

/-- `ArticleCategorizer.categorize_article` (`categorizer.py` lines 254–261)
over the fallback backend: the key of maximal score, first maximal entry on
ties; `none` models the `max` of an empty dict raising. -/
def categorize_article (text : String) (categories : List String) : Option String :=
  match fallback_categorize text categories with
  | [] => none
  | (k, v) :: rest => some (bestKeyAux k v rest)

/-! Claim-side score definitions, written from the spec sentence
"base score 0.1 plus 0.2 per matching keyword, capped at 1.0 per category,
then normalize scores to sum to 1 across candidates". -/

/-- The claimed pre-normalization score. -/
def claimRawScore (text category : String) : ℚ :=
  min (0.1 + 0.2 * ((keywordsFor category).countP
    (fun kw => strContains (strToLower text) kw) : ℚ)) 1

/-- The claimed normalization total over the (de-duplicated) candidates. -/
def claimTotal (text : String) (categories : List String) : ℚ :=
  ((dedupFirst categories).map (claimRawScore text)).sum

/-- The claimed normalized score of one candidate. -/
def claimScore (text : String) (categories : List String) (c : String) : ℚ :=
  claimRawScore text c / claimTotal text categories

theorem score_foldl_eq_countP (text_lower : String) (kws : List String) (init : ℚ) :
    kws.foldl (fun s kw => if strContains text_lower kw then s + 0.2 else s) init
      = init + 0.2 * (kws.countP (fun kw => strContains text_lower kw) : ℚ) := by
  induction kws generalizing init with
  | nil => simp
  | cons kw rest ih =>
    by_cases h : strContains text_lower kw
    · simp only [List.foldl_cons, h, if_true, List.countP_cons, h, if_true, ih]
      push_cast
      ring
    · simp only [List.foldl_cons, h, if_false, List.countP_cons]
      rw [ih]
      simp [h]

theorem rawScore_eq_claimRawScore (text category : String) :
    rawScore (strToLower text) category = claimRawScore text category := by
  rw [rawScore, claimRawScore, score_foldl_eq_countP]

theorem rawScore_pos (text_lower category : String) : 0 < rawScore text_lower category := by
  rw [rawScore, score_foldl_eq_countP]
  have h2 : (0 : ℚ) ≤ 0.2 * ((keywordsFor category).countP
      (fun kw => strContains text_lower kw) : ℚ) := by positivity
  have : (0 : ℚ) < 0.1 + 0.2 * ((keywordsFor category).countP
      (fun kw => strContains text_lower kw) : ℚ) := by linarith
  exact lt_min this (by norm_num)

theorem dedupFirst_ne_nil (l : List String) (h : l ≠ []) : dedupFirst l ≠ [] := by
  cases l with
  | nil => exact absurd rfl h
  | cons c cs => simp [dedupFirst]

theorem claimTotal_pos (text : String) (categories : List String)
    (h : categories ≠ []) : 0 < claimTotal text categories := by
  apply List.sum_pos
  · intro x hx
    obtain ⟨c, hc, rfl⟩ := List.mem_map.mp hx
    rw [← rawScore_eq_claimRawScore]
    exact rawScore_pos (strToLower text) c
  · simp only [ne_eq, List.map_eq_nil_iff]
    exact dedupFirst_ne_nil categories h

theorem sum_map_div_list (l : List ℚ) (t : ℚ) : (l.map (· / t)).sum = l.sum / t := by
  induction l with
  | nil => simp
  | cons x xs ih => simp [ih, add_div]

theorem fallback_categorize_eq_claim (text : String) (categories : List String)
    (h : categories ≠ []) :
    fallback_categorize text categories
      = (dedupFirst categories).map (fun c => (c, claimScore text categories c)) := by
  have htot : (List.map (Prod.snd ∘ fun category => (category, rawScore (strToLower text) category))
      (dedupFirst categories)).sum = claimTotal text categories := by
    rw [claimTotal]
    exact congrArg List.sum
      (List.map_congr_left (fun c _ => rawScore_eq_claimRawScore text c))
  rw [fallback_categorize]
  simp only [List.map_map]
  rw [htot, if_pos (claimTotal_pos text categories h)]
  exact List.map_congr_left (fun c _ => by
    simp only [Function.comp_apply, claimScore, rawScore_eq_claimRawScore])

/-- **C6.** For every text and non-empty candidate list, the score mapping
returned by `_fallback_categorize` has all values non-negative and summing
exactly to `1` (in the exact-rational model of the float arithmetic). -/
theorem fallback_scores_normalized (text : String) (categories : List String)
    (h : categories ≠ []) :
    (∀ p ∈ fallback_categorize text categories, 0 ≤ p.2)
    ∧ ((fallback_categorize text categories).map Prod.snd).sum = 1 := by
  have htot := claimTotal_pos text categories h
  rw [fallback_categorize_eq_claim text categories h]
  constructor
  · intro p hp
    obtain ⟨c, hc, rfl⟩ := List.mem_map.mp hp
    have := rawScore_pos (strToLower text) c
    rw [rawScore_eq_claimRawScore] at this
    exact div_nonneg this.le htot.le
  · rw [List.map_map]
    have : ((dedupFirst categories).map
        ((fun p : String × ℚ => p.2) ∘ fun c => (c, claimScore text categories c)))
        = ((dedupFirst categories).map (claimRawScore text)).map (· / claimTotal text categories) := by
      rw [List.map_map]
      exact List.map_congr_left (fun c _ => rfl)
    rw [this, sum_map_div_list, ← claimTotal]
    exact div_self htot.ne'

/-- Witness for C6 on a concrete text and candidate list. -/
theorem fallback_scores_normalized_witness :
    ((["tech", "sports"] : List String) ≠ [])
    ∧ ((∀ p ∈ fallback_categorize "ai software news" ["tech", "sports"], 0 ≤ p.2)
      ∧ ((fallback_categorize "ai software news" ["tech", "sports"]).map Prod.snd).sum = 1) := by
  exact ⟨by decide, fallback_scores_normalized "ai software news" ["tech", "sports"]
    (by decide)⟩

theorem mem_dedupFirst (l : List String) (x : String) : x ∈ dedupFirst l ↔ x ∈ l := by
  induction l with
  | nil => simp [dedupFirst]
  | cons c cs ih =>
    simp only [dedupFirst, List.mem_cons, List.mem_filter, ih, bne_iff_ne, ne_eq]
    by_cases hx : x = c
    · simp [hx]
    · simp [hx]

theorem nodup_dedupFirst (l : List String) : (dedupFirst l).Nodup := by
  induction l with
  | nil => simp [dedupFirst]
  | cons c cs ih =>
    rw [dedupFirst, List.nodup_cons]
    refine ⟨fun hmem => ?_, ih.filter _⟩
    have := (List.mem_filter.mp hmem).2
    simp at this

theorem filter_indexOf_lt (p : String → Bool) (L : List String) (hN : L.Nodup)
    (d c : String) (hd : d ∈ L.filter p) (hc : c ∈ L.filter p) :
    ((L.filter p).indexOf d < (L.filter p).indexOf c ↔ L.indexOf d < L.indexOf c) := by
  induction L with
  | nil => simp at hd
  | cons y ys ih =>
    rw [List.nodup_cons] at hN
    by_cases hpy : p y
    · rw [List.filter_cons_of_pos hpy] at hd hc ⊢
      by_cases hdy : d = y
      · subst hdy
        by_cases hcy : c = d
        · subst hcy
          simp
        · rw [List.indexOf_cons_self, List.indexOf_cons_self,
            List.indexOf_cons_ne _ (Ne.symm hcy), List.indexOf_cons_ne _ (Ne.symm hcy)]
          simp
      · by_cases hcy : c = y
        · subst hcy
          rw [List.indexOf_cons_self, List.indexOf_cons_self,
            List.indexOf_cons_ne _ (Ne.symm hdy), List.indexOf_cons_ne _ (Ne.symm hdy)]
          simp
        · rw [List.indexOf_cons_ne _ (Ne.symm hdy), List.indexOf_cons_ne _ (Ne.symm hcy),
            List.indexOf_cons_ne _ (Ne.symm hdy), List.indexOf_cons_ne _ (Ne.symm hcy),
            Nat.succ_lt_succ_iff, Nat.succ_lt_succ_iff]
          exact ih hN.2 (by simpa [hdy] using hd) (by simpa [hcy] using hc)
    · rw [List.filter_cons_of_neg hpy] at hd hc ⊢
      have hdy : d ≠ y := fun he => hN.1 (he ▸ List.mem_of_mem_filter hd)
      have hcy : c ≠ y := fun he => hN.1 (he ▸ List.mem_of_mem_filter hc)
      rw [List.indexOf_cons_ne _ (Ne.symm hdy), List.indexOf_cons_ne _ (Ne.symm hcy),
        Nat.succ_lt_succ_iff]
      exact ih hN.2 hd hc

theorem dedupFirst_indexOf_lt (l : List String) (d c : String)
    (hd : d ∈ dedupFirst l) (hc : c ∈ dedupFirst l) :
    ((dedupFirst l).indexOf d < (dedupFirst l).indexOf c ↔ l.indexOf d < l.indexOf c) := by
  induction l with
  | nil => simp [dedupFirst] at hd
  | cons y cs ih =>
    rw [dedupFirst] at hd hc ⊢
    by_cases hdy : d = y
    · subst hdy
      by_cases hcy : c = d
      · subst hcy
        simp
      · rw [List.indexOf_cons_self, List.indexOf_cons_self,
          List.indexOf_cons_ne _ (Ne.symm hcy), List.indexOf_cons_ne _ (Ne.symm hcy)]
        simp
    · by_cases hcy : c = y
      · subst hcy
        rw [List.indexOf_cons_self, List.indexOf_cons_self,
          List.indexOf_cons_ne _ (Ne.symm hdy), List.indexOf_cons_ne _ (Ne.symm hdy)]
        simp
      · have hdF : d ∈ (dedupFirst cs).filter (fun x => x != y) := by
          rcases List.mem_cons.mp hd with he | hmem
          · exact absurd he hdy
          · exact hmem
        have hcF : c ∈ (dedupFirst cs).filter (fun x => x != y) := by
          rcases List.mem_cons.mp hc with he | hmem
          · exact absurd he hcy
          · exact hmem
        rw [List.indexOf_cons_ne _ (Ne.symm hdy), List.indexOf_cons_ne _ (Ne.symm hcy),
          List.indexOf_cons_ne _ (Ne.symm hdy), List.indexOf_cons_ne _ (Ne.symm hcy),
          Nat.succ_lt_succ_iff, Nat.succ_lt_succ_iff]
        have h1 := filter_indexOf_lt (fun x => x != y) (dedupFirst cs)
          (nodup_dedupFirst cs) d c hdF hcF
        have h2 := ih (List.mem_of_mem_filter hdF) (List.mem_of_mem_filter hcF)
        exact h1.trans h2

theorem mem_prefix_of_indexOf_lt (P Q : List String) (r d : String)
    (hnod : (P ++ r :: Q).Nodup) (hd : d ∈ P ++ r :: Q)
    (hlt : (P ++ r :: Q).indexOf d < (P ++ r :: Q).indexOf r) : d ∈ P := by
  induction P with
  | nil =>
    rw [List.nil_append, List.indexOf_cons_self] at hlt
    exact absurd hlt (Nat.not_lt_zero _)
  | cons p P ih =>
    by_cases hdp : d = p
    · subst hdp
      exact List.mem_cons_self _ _
    · have hrp : r ≠ p := by
        intro he
        subst he
        exact (List.nodup_cons.mp hnod).1 (by simp)
      rw [List.cons_append] at hnod hd hlt
      rw [List.indexOf_cons_ne _ (Ne.symm hdp), List.indexOf_cons_ne _ (Ne.symm hrp),
        Nat.succ_lt_succ_iff] at hlt
      have hd2 : d ∈ P ++ r :: Q := by
        rcases List.mem_cons.mp hd with he | hmem
        · exact absurd he hdp
        · exact hmem
      exact List.mem_cons_of_mem _ (ih (List.nodup_cons.mp hnod).2 hd2 hlt)

theorem bestKeyAux_first (g : String → ℚ) (k : String) (ks : List String) :
    ∃ r, bestKeyAux k (g k) (ks.map (fun c => (c, g c))) = r
    ∧ ((r = k ∧ ∀ d ∈ ks, g d ≤ g k)
      ∨ (∃ pre post, ks = pre ++ r :: post ∧ g k < g r
          ∧ (∀ d ∈ pre, g d < g r) ∧ (∀ d ∈ post, g d ≤ g r))) := by
  induction ks generalizing k with
  | nil => exact ⟨k, rfl, Or.inl ⟨rfl, by simp⟩⟩
  | cons c cs ih =>
    simp only [List.map_cons, bestKeyAux]
    by_cases hc : g k < g c
    · rw [if_pos hc]
      obtain ⟨r, hr, hcase⟩ := ih c
      refine ⟨r, hr, Or.inr ?_⟩
      rcases hcase with ⟨rfl, hle⟩ | ⟨pre, post, rfl, hgt, hpre, hpost⟩
      · exact ⟨[], cs, rfl, hc, by simp, hle⟩
      · refine ⟨c :: pre, post, rfl, lt_trans hc hgt, ?_, hpost⟩
        intro d hd
        rcases List.mem_cons.mp hd with rfl | hdp
        · exact hgt
        · exact hpre d hdp
    · rw [if_neg hc]
      obtain ⟨r, hr, hcase⟩ := ih k
      refine ⟨r, hr, ?_⟩
      rcases hcase with ⟨rfl, hle⟩ | ⟨pre, post, rfl, hgt, hpre, hpost⟩
      · refine Or.inl ⟨rfl, ?_⟩
        intro d hd
        rcases List.mem_cons.mp hd with rfl | hdp
        · exact not_lt.mp hc
        · exact hle d hdp
      · refine Or.inr ⟨c :: pre, post, rfl, hgt, ?_, hpost⟩
        intro d hd
        rcases List.mem_cons.mp hd with rfl | hdp
        · exact lt_of_le_of_lt (not_lt.mp hc) hgt
        · exact hpre d hdp

/-- **C5.** The fallback categorization heuristic gives every candidate the
claimed normalized score — `min(0.1 + 0.2·(matching keywords), 1)` divided by
the total over the (dict-deduplicated) candidates — and
`categorize_article` returns the argmax of those scores, ties broken in
favor of the first-listed candidate: every candidate listed strictly earlier
than the chosen one has strictly smaller score. -/
theorem categorize_article_argmax (text : String) (categories : List String)
    (h : categories ≠ []) :
    fallback_categorize text categories
      = (dedupFirst categories).map (fun c => (c, claimScore text categories c))
    ∧ ∃ c, categorize_article text categories = some c
        ∧ c ∈ categories
        ∧ (∀ d ∈ categories, claimScore text categories d ≤ claimScore text categories c)
        ∧ (∀ d ∈ categories, categories.indexOf d < categories.indexOf c →
            claimScore text categories d < claimScore text categories c) := by
  refine ⟨fallback_categorize_eq_claim text categories h, ?_⟩
  obtain ⟨k, ks, hkks⟩ : ∃ k ks, dedupFirst categories = k :: ks := by
    cases hD2 : dedupFirst categories with
    | nil => exact absurd hD2 (dedupFirst_ne_nil categories h)
    | cons a b => exact ⟨a, b, rfl⟩
  obtain ⟨r, hr, hcase⟩ := bestKeyAux_first (claimScore text categories) k ks
  have hcat : categorize_article text categories = some r := by
    rw [categorize_article, fallback_categorize_eq_claim text categories h, hkks,
      List.map_cons]
    exact congrArg some hr
  have hrD : r ∈ dedupFirst categories := by
    rw [hkks]
    rcases hcase with ⟨rfl, _⟩ | ⟨pre, post, hsplit, _, _, _⟩
    · exact List.mem_cons_self _ _
    · rw [hsplit]
      exact List.mem_cons_of_mem _ (by simp)
  refine ⟨r, hcat, (mem_dedupFirst categories r).mp hrD, ?_, ?_⟩
  · intro d hd
    have hdD : d ∈ dedupFirst categories := (mem_dedupFirst _ _).mpr hd
    rw [hkks] at hdD
    rcases hcase with ⟨rfl, hle⟩ | ⟨pre, post, hsplit, hgt, hpre, hpost⟩
    · rcases List.mem_cons.mp hdD with rfl | hdks
      · exact le_refl _
      · exact hle d hdks
    · rcases List.mem_cons.mp hdD with rfl | hdks
      · exact hgt.le
      · rw [hsplit] at hdks
        rcases List.mem_append.mp hdks with hdpre | hdrp
        · exact (hpre d hdpre).le
        · rcases List.mem_cons.mp hdrp with rfl | hdpost
          · exact le_refl _
          · exact hpost d hdpost
  · intro d hd hlt
    have hdD : d ∈ dedupFirst categories := (mem_dedupFirst _ _).mpr hd
    have hltD : (dedupFirst categories).indexOf d < (dedupFirst categories).indexOf r :=
      (dedupFirst_indexOf_lt categories d r hdD hrD).mpr hlt
    rcases hcase with ⟨rfl, hle⟩ | ⟨pre, post, hsplit, hgt, hpre, hpost⟩
    · rw [hkks, List.indexOf_cons_self] at hltD
      exact absurd hltD (Nat.not_lt_zero _)
    · have hDsplit : dedupFirst categories = (k :: pre) ++ r :: post := by
        rw [hkks, hsplit, List.cons_append]
      have hnodD : ((k :: pre) ++ r :: post).Nodup := hDsplit ▸ nodup_dedupFirst categories
      have hdmem : d ∈ (k :: pre) ++ r :: post := hDsplit ▸ hdD
      have hlt2 : ((k :: pre) ++ r :: post).indexOf d
          < ((k :: pre) ++ r :: post).indexOf r := hDsplit ▸ hltD
      have hdpre := mem_prefix_of_indexOf_lt (k :: pre) post r d hnodD hdmem hlt2
      rcases List.mem_cons.mp hdpre with rfl | hdp
      · exact hgt
      · exact hpre d hdp

/-- Witness for C5 on a concrete text and candidate list. -/
theorem categorize_article_argmax_witness :
    ((["tech", "sports"] : List String) ≠ [])
    ∧ ∃ c, categorize_article "the team won the game" ["tech", "sports"] = some c
        ∧ c ∈ (["tech", "sports"] : List String)
        ∧ ∀ d ∈ (["tech", "sports"] : List String),
            claimScore "the team won the game" ["tech", "sports"] d
              ≤ claimScore "the team won the game" ["tech", "sports"] c := by
  refine ⟨by decide, ?_⟩
  obtain ⟨-, c, hc, hmem, hmax, -⟩ :=
    categorize_article_argmax "the team won the game" ["tech", "sports"] (by decide)
  exact ⟨c, hc, hmem, hmax⟩

/-! ### Article processing (`processor.py` lines 52–85)
The summarizer and categorizer backends are parameters; an inner `none`
models a backend call raising, which the surrounding `try` catches after any
assignments already made to the copy. -/

/-- `f"{article.title}. {article.body[:1000]}"` (`processor.py` line 76). -/
def textForCategorization (a : Article) : String :=
  a.title ++ ". " ++ a.body.take 1000

/-- `ArticleProcessor.process_article` (`processor.py` lines 52–85): start
from `article.model_copy()`, optionally set `summary`, then optionally set
`category`; a backend exception aborts the remaining assignments and the
copy, as assigned so far, is returned. -/
def process_article (summarizeFn : Option (String → Nat → Option String))
    (categorizeFn : Option (String → Option String))
    (summarize categorize : Bool) (max_summary_length : Nat) (a : Article) : Article :=
  match (if summarize then summarizeFn else none) with
  | some f =>
    match f a.body max_summary_length with
    | none => a
    | some s =>
      let p := { a with summary := some s }
      match (if categorize then categorizeFn else none) with
      | some g =>
        match g (textForCategorization a) with
        | none => p
        | some c => { p with category := some c }
      | none => p
  | none =>
    match (if categorize then categorizeFn else none) with
    | some g =>
      match g (textForCategorization a) with
      | none => a
      | some c => { a with category := some c }
    | none => a

/-- **C2.** `process_article` operates on a copy (`model_copy`), never on the
scraped record itself — in this pure model the input is immutable by
construction — and the returned record agrees with the input on every field
except possibly `summary` and `category`. -/
theorem process_article_frame (summarizeFn : Option (String → Nat → Option String))
    (categorizeFn : Option (String → Option String))
    (summarize categorize : Bool) (max_summary_length : Nat) (a : Article) :
    (process_article summarizeFn categorizeFn summarize categorize
        max_summary_length a).title = a.title
    ∧ (process_article summarizeFn categorizeFn summarize categorize
        max_summary_length a).url = a.url
    ∧ (process_article summarizeFn categorizeFn summarize categorize
        max_summary_length a).body = a.body
    ∧ (process_article summarizeFn categorizeFn summarize categorize
        max_summary_length a).source = a.source
    ∧ (process_article summarizeFn categorizeFn summarize categorize
        max_summary_length a).published_at = a.published_at
    ∧ (process_article summarizeFn categorizeFn summarize categorize
        max_summary_length a).scraped_at = a.scraped_at
    ∧ (process_article summarizeFn categorizeFn summarize categorize
        max_summary_length a).author = a.author
    ∧ (process_article summarizeFn categorizeFn summarize categorize
        max_summary_length a).tags = a.tags := by
  unfold process_article
  cases (if summarize then summarizeFn else none) with
  | none =>
    cases (if categorize then categorizeFn else none) with
    | none => simp
    | some g =>
      cases hg : g (textForCategorization a) with
      | none => simp [hg]
      | some c => simp [hg]
  | some f =>
    cases hf : f a.body max_summary_length with
    | none => simp [hf]
    | some s =>
      cases (if categorize then categorizeFn else none) with
      | none => simp [hf]
      | some g =>
        cases hg : g (textForCategorization a) with
        | none => simp [hf, hg]
        | some c => simp [hf, hg]

/-! ### The RSS feed scraper (`rss_scraper.py` lines 24–62)
`feedparser`, `dateutil`, the HTTP fetch and BeautifulSoup are external
collaborators: a parsed feed entry is a record of optional fields, and the
date parser, page fetcher and HTML stripper are context parameters. -/

/-- One parsed feed entry, as surfaced by `feedparser`: `tags` holds the
`term` values, `content` the embedded full-content value when present. -/
structure FeedEntry where
  title : Option String := none
  link : Option String := none
  published_parsed : Option Nat := none
  published : Option String := none
  author : Option String := none
  summary : Option String := none
  description : Option String := none
  content : Option String := none
  tags : List String := []
deriving DecidableEq, Repr

/-- External collaborators of the scraper: `dateutil.parser.parse` (`none` =
raises), page fetch + text extraction (`none` = fetch failed), the
BeautifulSoup `get_text` used on markup-bearing bodies, and the clock. -/
structure ScrapeCtx where
  parseDate : String → Option Nat
  fetchContent : String → Option String
  stripHtml : String → String
  now : Nat

/-- Python `str.strip()`: drop whitespace from both ends. -/
def pyStrip (s : String) : String :=
  String.mk (((s.data.dropWhile Char.isWhitespace).reverse.dropWhile
    Char.isWhitespace).reverse)

/-- Splitter of Python `str.split()` (no argument): maximal runs of
non-whitespace characters. -/
def splitWsAux : List Char → List Char → List String
  | [], cur => if cur = [] then [] else [String.mk cur.reverse]
  | c :: cs, cur =>
    if c.isWhitespace then
      if cur = [] then splitWsAux cs []
      else String.mk cur.reverse :: splitWsAux cs []
    else splitWsAux cs (c :: cur)

/-- `' '.join(text.split())` (`rss_scraper.py` line 131). -/
def normalizeWs (s : String) : String :=
  " ".intercalate (splitWsAux s.data [])

/-- `RSSFeedScraper._clean_html` (`rss_scraper.py` lines 125–131): strip the
markup via BeautifulSoup only when the text contains both `<` and `>`, then
collapse whitespace. -/
def clean_html (ctx : ScrapeCtx) (s : String) : String :=
  normalizeWs (if strContains s "<" && strContains s ">" then ctx.stripHtml s else s)

/-- The two required-field guards of `_parse_entry` (`rss_scraper.py` lines
55–62): a stripped-non-empty title and a stripped-non-empty link. -/
def wellFormedEntry (e : FeedEntry) : Bool :=
  (pyStrip (e.title.getD "") != "") && (pyStrip (e.link.getD "") != "")

/-- The `Article` built by `_parse_entry` (`rss_scraper.py` lines 64–113)
once both guards pass: structured feed date, else free-text date parse, else
none; summary from `summary` falling back to `description`; body from
embedded content, else the fetched page text (empty or failed fetch falls
back to the summary), cleaned of markup; `scraped_at` from the clock. -/
def articleOfEntry (ctx : ScrapeCtx) (source_name category : String)
    (e : FeedEntry) : Article :=
  let url := pyStrip (e.link.getD "")
  let summary0 := pyStrip (e.summary.getD "")
  let summary := if summary0 = "" then pyStrip (e.description.getD "") else summary0
  { title := pyStrip (e.title.getD "")
    url := url
    body := clean_html ctx
      (match e.content with
       | some c => c
       | none =>
         match ctx.fetchContent url with
         | some s => if s = "" then summary else s
         | none => summary)
    summary := some summary
    category := some category
    source := source_name
    published_at :=
      match e.published_parsed with
      | some t => some t
      | none =>
        match e.published with
        | some s => ctx.parseDate s
        | none => none
    scraped_at := ctx.now
    author := e.author
    tags := e.tags }

/-- `RSSFeedScraper._parse_entry` (`rss_scraper.py` lines 52–113): `none`
when a required field is missing or blank, the built article otherwise. -/
def parse_entry (ctx : ScrapeCtx) (source_name category : String)
    (e : FeedEntry) : Option Article :=
  if wellFormedEntry e then some (articleOfEntry ctx source_name category e) else none

/-- `RSSFeedScraper.scrape_articles` (`rss_scraper.py` lines 24–50): the
first `max_articles` entries, each parsed independently, skipped entries
dropped; a per-entry failure only skips that entry. -/
def scrape_articles (ctx : ScrapeCtx) (source_name category : String)
    (max_articles : Nat) (entries : List FeedEntry) : List Article :=
  (entries.take max_articles).filterMap (parse_entry ctx source_name category)

theorem filterMap_all_good (p : α → Option β) (f : α → β) (wf : α → Bool)
    (hp : ∀ a, p a = if wf a then some (f a) else none)
    (es : List α) (hgood : ∀ a ∈ es, wf a = true) :
    es.filterMap p = es.map f := by
  induction es with
  | nil => rfl
  | cons e es ih =>
    rw [List.filterMap_cons, hp e, if_pos (hgood e (List.mem_cons_self e es)), List.map_cons,
      ih (fun a ha => hgood a (List.mem_cons_of_mem e ha))]

theorem filterMap_eraseIdx (p : α → Option β) (f : α → β) (wf : α → Bool)
    (hp : ∀ a, p a = if wf a then some (f a) else none)
    (es : List α) (i : Nat) (hi : i < es.length)
    (hbad : wf (es.get ⟨i, hi⟩) = false)
    (hgood : ∀ (j : Nat) (hj : j < es.length), j ≠ i → wf (es.get ⟨j, hj⟩) = true) :
    es.filterMap p = (es.eraseIdx i).map f := by
  induction es generalizing i with
  | nil => exact absurd hi (Nat.not_lt_zero i)
  | cons e es ih =>
    cases i with
    | zero =>
      rw [List.filterMap_cons, hp e]
      have hbe : wf e = false := hbad
      rw [hbe, List.eraseIdx_cons_zero]
      exact filterMap_all_good p f wf hp es (fun a ha => by
        obtain ⟨j, hj, rfl⟩ := List.mem_iff_get.mp ha
        exact hgood (j + 1) (Nat.succ_lt_succ j.isLt) (by omega))
    | succ i2 =>
      have hge : wf e = true := hgood 0 (by omega) (by omega)
      rw [List.filterMap_cons, hp e, hge, List.eraseIdx_cons_succ, List.map_cons,
        ih i2 (Nat.lt_of_succ_lt_succ hi) hbad
          (fun j hj hne => hgood (j + 1) (Nat.succ_lt_succ hj) (by omega))]
      simp

/-- **C7.** When exactly one of the first `N ≤ max_articles` feed entries is
malformed (missing or blank title, or missing or blank link), `scrape_articles`
skips exactly that entry and returns, in order, the articles built from the
other `N − 1` entries; the per-entry failure never aborts the remaining
entries. -/
theorem scrape_skips_malformed (ctx : ScrapeCtx) (source_name category : String)
    (max_articles : Nat) (entries : List FeedEntry) (i : Nat) (hi : i < entries.length)
    (hlen : entries.length ≤ max_articles)
    (hbad : wellFormedEntry (entries.get ⟨i, hi⟩) = false)
    (hgood : ∀ (j : Nat) (hj : j < entries.length), j ≠ i →
        wellFormedEntry (entries.get ⟨j, hj⟩) = true) :
    scrape_articles ctx source_name category max_articles entries
      = (entries.eraseIdx i).map (articleOfEntry ctx source_name category)
    ∧ (scrape_articles ctx source_name category max_articles entries).length
        = entries.length - 1 := by
  have hmain : scrape_articles ctx source_name category max_articles entries
      = (entries.eraseIdx i).map (articleOfEntry ctx source_name category) := by
    rw [scrape_articles, List.take_of_length_le hlen]
    exact filterMap_eraseIdx _ _ wellFormedEntry (fun e => rfl) entries i hi hbad hgood
  refine ⟨hmain, ?_⟩
  rw [hmain, List.length_map, List.length_eraseIdx]
  simp [hi]

/-- A well-formed feed entry for the C7 witness. -/
def wGoodEntry : FeedEntry := { title := some "Launch", link := some "u" }

/-- A feed entry with no link for the C7 witness. -/
def wBadEntry : FeedEntry := { title := some "NoLink" }

/-- Concrete external collaborators for the C7 witness. -/
def wCtx : ScrapeCtx := ⟨fun _ => none, fun _ => none, fun s => s, 7⟩

/-- Witness for C7: one of two entries lacks a link; the other still comes
through. -/
theorem scrape_skips_malformed_witness :
    wellFormedEntry wBadEntry = false
    ∧ scrape_articles wCtx "feed" "tech" 10 [wGoodEntry, wBadEntry]
        = [articleOfEntry wCtx "feed" "tech" wGoodEntry]
    ∧ (scrape_articles wCtx "feed" "tech" 10 [wGoodEntry, wBadEntry]).length = 1 := by
  have h := scrape_skips_malformed wCtx "feed" "tech" 10 [wGoodEntry, wBadEntry] 1
    (by decide) (by decide) (by decide) (by decide)
  exact ⟨by decide, h.1, h.2⟩
